import Mathlib

/-!
Verification of the file-status reconciliation and caching engine of the
open-doc-translate repository (FileManager in the main process, plus the
batch translation fan-out of TranslationDialog).

The TypeScript code is shallowly embedded: JavaScript `Map`s become
association lists with JS `Map.set`/`Map.get` semantics, the git and
filesystem oracles become explicit inputs, and the relevant string
operations (`startsWith`, `substring`, template-literal concatenation)
are modelled on the character list of `String`.
-/

namespace ODT

/-- Translation status values used by the engine:
`'translated' | 'outdated' | 'untranslated'`. -/
inductive TrStatus where
  | translated
  | outdated
  | untranslated
deriving DecidableEq

/-- The `FileStatus` record of fileManager:
`{ path, status, modified?: boolean, lastHash?: string }`.
Optional fields are `Option`s (`none` = `undefined`). -/
structure FileStatus where
  path : String
  status : TrStatus
  modified : Option Bool
  lastHash : Option String
deriving DecidableEq

/-- Lookup in a JS `Map` modelled as an association list
(`Map.get`: first matching key, `undefined` if absent; keys are unique
in a real `Map`, so first-match agrees with it). -/
def mapLookup {α : Type _} : List (String × α) → String → Option α
  | [], _ => none
  | (k, v) :: rest, key => if k = key then some v else mapLookup rest key

/-- JS `Map.set`: replace the value in place if the key is present,
otherwise append the new entry at the end. -/
def mapSet {α : Type _} : List (String × α) → String → α → List (String × α)
  | [], key, v => [(key, v)]
  | (k, w) :: rest, key, v =>
      if k = key then (key, v) :: rest else (k, w) :: mapSet rest key v

/-- JS `Map.delete` over all entries with the given key. -/
def mapErase {α : Type _} (m : List (String × α)) (key : String) : List (String × α) :=
  m.filter (fun kv => decide (kv.1 ≠ key))

/-- JS truthiness of `string | undefined`: `undefined` and the empty
string are falsy. -/
def strTruthy : Option String → Bool
  | none => false
  | some s => !s.isEmpty

/-- TS `String.prototype.startsWith`, modelled on the character list. -/
def strStartsWith (s pre : String) : Bool :=
  pre.data.isPrefixOf s.data

/-- TS `String.prototype.substring(n)` (drop the first `n` characters),
modelled on the character list. -/
def strSubstringFrom (s : String) (n : Nat) : String :=
  ⟨s.data.drop n⟩

/-- TS `String.prototype.length`, modelled as the character count. -/
def strLen (s : String) : Nat :=
  s.data.length

/-- The status-cache key template literal
`${projectPath}:${workingBranch}:${filePath}`. -/
def cacheKey (projectPath workingBranch filePath : String) : String :=
  projectPath ++ ":" ++ workingBranch ++ ":" ++ filePath

/-- The branch key template literal `${projectPath}:${workingBranch}:`
used by saveStatusCache and the cache-clear operations. -/
def branchPrefixStr (projectPath workingBranch : String) : String :=
  projectPath ++ ":" ++ workingBranch ++ ":"

theorem cacheKey_eq_append (projectPath workingBranch filePath : String) :
    cacheKey projectPath workingBranch filePath =
      branchPrefixStr projectPath workingBranch ++ filePath := by
  simp [cacheKey, branchPrefixStr, String.append_assoc]

/-- `calculateFileStatus` (fileManager, part_001 lines 494-537).  The git
oracle results are explicit inputs: `upstreamExists` is
`fileExistsInBranch(upstream/<upstreamBranch>)`, `localExists` is
`fileExistsLocally`, `modified` is `isFileModified`, and `upstreamHash`
is the `getFileHash` result for `upstream/<upstreamBranch>`
(`null` = `none`).  `localExists` is computed but unused by the source. -/
def calculateFileStatus (statusCache : List (String × FileStatus))
    (projectPath filePath upstreamBranch workingBranch : String)
    (upstreamExists localExists modified : Bool)
    (upstreamHash : Option String) : FileStatus :=
  if upstreamExists then
    match mapLookup statusCache (cacheKey projectPath workingBranch filePath) with
    | some cachedStatus =>
        if strTruthy cachedStatus.lastHash then
          if strTruthy upstreamHash && (cachedStatus.lastHash == upstreamHash) then
            { path := filePath, status := .translated, modified := some modified,
              lastHash := upstreamHash }
          else
            { path := filePath, status := .outdated, modified := some modified,
              lastHash := cachedStatus.lastHash }
        else
          { path := filePath, status := .untranslated, modified := some modified,
            lastHash := none }
    | none =>
        { path := filePath, status := .untranslated, modified := some modified,
          lastHash := none }
  else
    { path := filePath, status := .untranslated, modified := some modified,
      lastHash := none }

/-- Whether a status is persisted / cached
(`status === 'translated' || status === 'outdated'`). -/
def persistedStatus (s : TrStatus) : Bool :=
  s == .translated || s == .outdated

/-- `getFileStatus` (fileManager, part_001 lines 466-491).  Returns the
computed `FileStatus` together with the status cache after the call.  On
a cache hit the source mutates the cached object's `modified` field in
place (the map entry is the same object), then returns it; on a miss it
runs `calculateFileStatus` and caches the result only when the status is
translated or outdated. -/
def getFileStatus (statusCache : List (String × FileStatus))
    (projectPath filePath upstreamBranch workingBranch : String)
    (upstreamExists localExists modified : Bool)
    (upstreamHash : Option String) :
    FileStatus × List (String × FileStatus) :=
  let key := cacheKey projectPath workingBranch filePath
  match mapLookup statusCache key with
  | some cached =>
      let refreshed := { cached with modified := some modified }
      (refreshed, mapSet statusCache key refreshed)
  | none =>
      let status := calculateFileStatus statusCache projectPath filePath
        upstreamBranch workingBranch upstreamExists localExists modified upstreamHash
      if persistedStatus status.status then
        (status, mapSet statusCache key status)
      else
        (status, statusCache)

/-- One path of `batchCalculateFileStatus` (fileManager, part_001 lines
897-934): status from the cached entry and the bulk upstream-hash map,
`modified` from the bulk modified map (`|| false`), and `lastHash` set to
the bulk map's current upstream hash unconditionally. -/
def batchStatusOne (statusCache : List (String × FileStatus))
    (projectPath workingBranch filePath : String)
    (upstreamHashMap : List (String × String))
    (modifiedMap : List (String × Bool)) : FileStatus :=
  let cachedStatus := mapLookup statusCache (cacheKey projectPath workingBranch filePath)
  let upstreamHash := mapLookup upstreamHashMap filePath
  let isModified := (mapLookup modifiedMap filePath).getD false
  let status :=
    match cachedStatus with
    | some c =>
        if strTruthy upstreamHash then
          if c.lastHash == upstreamHash then TrStatus.translated else TrStatus.outdated
        else
          c.status
    | none => TrStatus.untranslated
  { path := filePath, status := status, modified := some isModified,
    lastHash := upstreamHash }

/-- `batchCalculateFileStatus` over the scanned file list: the
`statusMap` is built by one `batchStatusOne` per path. -/
def batchCalculateFileStatus (statusCache : List (String × FileStatus))
    (projectPath workingBranch : String) (allFiles : List String)
    (upstreamHashMap : List (String × String))
    (modifiedMap : List (String × Bool)) : List (String × FileStatus) :=
  allFiles.map (fun f =>
    (f, batchStatusOne statusCache projectPath workingBranch f upstreamHashMap modifiedMap))

theorem String.eq_of_data_eq {s t : String} (h : s.data = t.data) : s = t := by
  cases s; cases t; simp_all

theorem strStartsWith_append (p q : String) : strStartsWith (p ++ q) p = true := by
  simp [strStartsWith, List.isPrefixOf_iff_prefix, String.data_append]

theorem strSubstringFrom_append (p q : String) :
    strSubstringFrom (p ++ q) (strLen p) = q := by
  apply String.eq_of_data_eq
  simp [strSubstringFrom, strLen, String.data_append]

theorem strStartsWith_decomp {k p : String} (h : strStartsWith k p = true) :
    p ++ strSubstringFrom k (strLen p) = k := by
  simp only [strStartsWith, List.isPrefixOf_iff_prefix] at h
  obtain ⟨t, ht⟩ := h
  apply String.eq_of_data_eq
  simp [strSubstringFrom, strLen, String.data_append, ← ht]

theorem String.append_left_cancel {p a b : String} (h : p ++ a = p ++ b) : a = b := by
  apply String.eq_of_data_eq
  have := congrArg String.data h
  simp only [String.data_append] at this
  exact List.append_cancel_left this

/-- `loadStatusCache` (fileManager, part_001 lines 351-371).
`fileContent` is the parse result of the persisted branch status file:
`none` models a missing, unreadable or unparseable file (the `catch`
only logs), in which case the in-memory cache is left as it was; a
successfully parsed file replaces the whole cache by the file's entries
re-keyed with `${projectPath}:${workingBranch}:${path}` (JSON object
keys are distinct, so the sequential `Map.set` loop amounts to this
list). -/
def loadStatusCache (statusCache : List (String × FileStatus))
    (projectPath workingBranch : String)
    (fileContent : Option (List (String × FileStatus))) :
    List (String × FileStatus) :=
  match fileContent with
  | some entries =>
      entries.map (fun kv => (cacheKey projectPath workingBranch kv.1, kv.2))
  | none => statusCache

/-- The `statusObj` computed by `saveStatusCache` (fileManager, part_001
lines 374-409): entries of the in-memory cache whose key starts with
`${projectPath}:${workingBranch}:` and whose status is translated or
outdated, re-keyed by the path obtained by stripping that key template. -/
def savedEntries (projectPath workingBranch : String)
    (statusCache : List (String × FileStatus)) : List (String × FileStatus) :=
  let pre := branchPrefixStr projectPath workingBranch
  (statusCache.filter (fun kv => strStartsWith kv.1 pre && persistedStatus kv.2.status)).map
    (fun kv => (strSubstringFrom kv.1 (strLen pre), kv.2))

/-- The escaped branch file name component: `workingBranch.replace(/[\/\\]/g, '_')`. -/
def safeBranchName (workingBranch : String) : String :=
  ⟨workingBranch.data.map (fun c => if c = '/' ∨ c = '\\' then '_' else c)⟩

/-- The persisted status file path
`join(projectPath, `.opendoc-translate-${safeBranchName}.json`)`. -/
def statusFilePath (projectPath workingBranch : String) : String :=
  projectPath ++ "/.opendoc-translate-" ++ safeBranchName workingBranch ++ ".json"

/-- A project directory modelled as a map from file path to parsed
status-file content. -/
abbrev StatusFS := List (String × List (String × FileStatus))

/-- Effect of `saveStatusCache` on the project directory: if the filtered
entry set is empty, `fs.unlink` the status file (any unlink error,
including the file being absent, is swallowed, so the operation is a
total function); otherwise overwrite the file with the entries. -/
def saveStatusCacheFS (projectPath workingBranch : String)
    (statusCache : List (String × FileStatus)) (fs : StatusFS) : StatusFS :=
  let file := statusFilePath projectPath workingBranch
  let obj := savedEntries projectPath workingBranch statusCache
  if obj.isEmpty then mapErase fs file
  else mapSet fs file obj

/-- The cache entry written by `translateFile` (fileManager, part_001
lines 1164-1178) after the translated content has been written locally:
`{ path, status: 'translated', lastHash: currentHash || undefined }`,
where `currentHash` is the `getFileBlobHash` result for
`upstream/<upstreamBranch>` (`null` = `none`); `modified` is omitted. -/
def translateFileEntry (filePath : String) (currentHash : Option String) : FileStatus :=
  { path := filePath, status := .translated, modified := none,
    lastHash := if strTruthy currentHash then currentHash else none }

/-- The status-cache update performed by `translateFile` before it
persists the branch cache. -/
def translateFileCacheUpdate (statusCache : List (String × FileStatus))
    (projectPath filePath workingBranch : String)
    (currentHash : Option String) : List (String × FileStatus) :=
  mapSet statusCache (cacheKey projectPath workingBranch filePath)
    (translateFileEntry filePath currentHash)

theorem mapLookup_mapSet_self {α : Type _} (m : List (String × α)) (k : String) (v : α) :
    mapLookup (mapSet m k v) k = some v := by
  induction m with
  | nil => simp [mapSet, mapLookup]
  | cons kv rest ih =>
      by_cases h : kv.1 = k
      · simp [mapSet, h, mapLookup]
      · simp [mapSet, h, mapLookup, ih]

theorem mapLookup_mapSet_ne {α : Type _} (m : List (String × α)) (k k' : String) (v : α)
    (h : k' ≠ k) : mapLookup (mapSet m k v) k' = mapLookup m k' := by
  induction m with
  | nil => simp [mapSet, mapLookup, Ne.symm h]
  | cons kv rest ih =>
      by_cases hk : kv.1 = k
      · subst hk
        simp only [mapSet, if_pos rfl, mapLookup]
        rw [if_neg (Ne.symm h), if_neg (Ne.symm h)]
      · simp only [mapSet, if_neg hk, mapLookup]
        by_cases hk2 : kv.1 = k'
        · simp [hk2]
        · simp [hk2, ih]

theorem mapLookup_mem {α : Type _} {m : List (String × α)} {k : String} {v : α}
    (h : mapLookup m k = some v) : (k, v) ∈ m := by
  induction m with
  | nil => simp [mapLookup] at h
  | cons kv rest ih =>
      by_cases hk : kv.1 = k
      · simp only [mapLookup, if_pos hk] at h
        have hkv : kv = (k, v) := by
          cases kv
          simp only [Option.some.injEq] at h
          simp_all
        rw [hkv]
        exact List.mem_cons_self _ _
      · simp only [mapLookup, if_neg hk] at h
        exact List.mem_cons_of_mem _ (ih h)

theorem mapSet_keys {α : Type _} (m : List (String × α)) (k : String) (v : α) :
    (mapSet m k v).map Prod.fst =
      if (mapLookup m k).isNone then m.map Prod.fst ++ [k] else m.map Prod.fst := by
  induction m with
  | nil => simp [mapSet, mapLookup]
  | cons kv rest ih =>
      by_cases hk : kv.1 = k
      · simp [mapSet, hk, mapLookup]
      · simp only [mapSet, if_neg hk, mapLookup, List.map_cons, ih]
        by_cases hl : (mapLookup rest k).isNone <;> simp [hl, hk]

theorem mapLookup_isSome_of_mem {α : Type _} {m : List (String × α)} {kv : String × α}
    (h : kv ∈ m) : (mapLookup m kv.1).isSome := by
  induction m with
  | nil => simp at h
  | cons kv2 rest ih =>
      by_cases hk2 : kv2.1 = kv.1
      · simp [mapLookup, hk2]
      · rcases List.mem_cons.mp h with h1 | h1
        · rw [h1] at hk2
          exact absurd rfl hk2
        · simpa [mapLookup, hk2] using ih h1

theorem mapSet_keys_nodup {α : Type _} {m : List (String × α)} (k : String) (v : α)
    (h : (m.map Prod.fst).Nodup) : ((mapSet m k v).map Prod.fst).Nodup := by
  rw [mapSet_keys]
  by_cases hl : (mapLookup m k).isNone
  · simp only [hl, if_true, reduceIte]
    rw [List.nodup_append]
    refine ⟨h, List.nodup_singleton k, ?_⟩
    intro a ha hb
    simp only [List.mem_singleton] at hb
    subst hb
    obtain ⟨kv, hkv, hfst⟩ := List.mem_map.mp ha
    have hsome := mapLookup_isSome_of_mem hkv
    rw [hfst] at hsome
    rw [Option.isNone_iff_eq_none] at hl
    simp [hl] at hsome
  · simpa [hl] using h

theorem mapLookup_filter_key {α : Type _} (m : List (String × α)) (p : String → Bool)
    (k : String) (hk : p k = true) :
    mapLookup (m.filter (fun kv => p kv.1)) k = mapLookup m k := by
  induction m with
  | nil => simp
  | cons kv rest ih =>
      by_cases hk1 : kv.1 = k
      · subst hk1
        simp [List.filter_cons, hk, mapLookup, ih]
      · by_cases hp : p kv.1 <;> simp [List.filter_cons, hp, mapLookup, hk1, ih]

theorem mapLookup_mapErase_self {α : Type _} (m : List (String × α)) (k : String) :
    mapLookup (mapErase m k) k = none := by
  induction m with
  | nil => simp [mapErase, mapLookup]
  | cons kv rest ih =>
      by_cases hk : kv.1 = k
      · simpa [mapErase, List.filter_cons, hk] using ih
      · simpa [mapErase, List.filter_cons, hk, mapLookup] using ih

theorem strTruthy_isSome {o : Option String} (h : strTruthy o = true) : o.isSome := by
  cases o <;> simp_all [strTruthy]

/-- C1 (counterexample): in batch reconciliation, a path whose recorded
`lastHash` ("h1") differs from the current upstream hash ("h2") gets
status outdated, but the resulting entry's `lastHash` is the new
upstream hash "h2", not the recorded "h1" — refuting the claim that the
lastHash never becomes the new upstream hash. -/
theorem claim1_counterexample :
    (batchStatusOne
        [(cacheKey "P" "W" "a.md",
          { path := "a.md", status := .translated, modified := none, lastHash := some "h1" })]
        "P" "W" "a.md" [("a.md", "h2")] []).status = TrStatus.outdated ∧
    (batchStatusOne
        [(cacheKey "P" "W" "a.md",
          { path := "a.md", status := .translated, modified := none, lastHash := some "h1" })]
        "P" "W" "a.md" [("a.md", "h2")] []).lastHash = some "h2" ∧
    some "h2" ≠ some "h1" := by
  refine ⟨?_, ?_, by decide⟩ <;> decide

/-- C1 (amended): for a path with a recorded `lastHash`: the single-path
fresh computation returns translated with that hash when the current
upstream hash matches, and otherwise outdated keeping the original
recorded hash; batch reconciliation likewise returns translated on a
hash match and outdated on a mismatch, and never writes to the cache
entry (the batch computation only reads the cache), but the resulting
record's `lastHash` field is the current upstream hash, not the original
recorded one. -/
theorem claim1_theorem
    (statusCache : List (String × FileStatus))
    (projectPath filePath upstreamBranch workingBranch : String)
    (localExists modified : Bool) (c : FileStatus) (upstreamHash : Option String)
    (uMap : List (String × String)) (mMap : List (String × Bool)) (h : String)
    (hc : mapLookup statusCache (cacheKey projectPath workingBranch filePath) = some c)
    (hrec : strTruthy c.lastHash = true)
    (hu : mapLookup uMap filePath = some h)
    (hh : strTruthy (some h) = true) :
    ((strTruthy upstreamHash && (c.lastHash == upstreamHash)) = true →
      (calculateFileStatus statusCache projectPath filePath upstreamBranch workingBranch
          true localExists modified upstreamHash).status = TrStatus.translated ∧
      (calculateFileStatus statusCache projectPath filePath upstreamBranch workingBranch
          true localExists modified upstreamHash).lastHash = upstreamHash) ∧
    ((strTruthy upstreamHash && (c.lastHash == upstreamHash)) = false →
      (calculateFileStatus statusCache projectPath filePath upstreamBranch workingBranch
          true localExists modified upstreamHash).status = TrStatus.outdated ∧
      (calculateFileStatus statusCache projectPath filePath upstreamBranch workingBranch
          true localExists modified upstreamHash).lastHash = c.lastHash) ∧
    (c.lastHash = some h →
      (batchStatusOne statusCache projectPath workingBranch filePath uMap mMap).status =
        TrStatus.translated ∧
      (batchStatusOne statusCache projectPath workingBranch filePath uMap mMap).lastHash =
        some h) ∧
    (c.lastHash ≠ some h →
      (batchStatusOne statusCache projectPath workingBranch filePath uMap mMap).status =
        TrStatus.outdated ∧
      (batchStatusOne statusCache projectPath workingBranch filePath uMap mMap).lastHash =
        some h) := by
  refine ⟨?_, ?_, ?_, ?_⟩
  · intro hcond
    simp [calculateFileStatus, hc, hrec, hcond]
  · intro hcond
    simp [calculateFileStatus, hc, hrec, hcond]
  · intro heq
    constructor <;> simp [batchStatusOne, hc, hu, hh, heq]
  · intro hne
    constructor <;> simp [batchStatusOne, hc, hu, hh, hne]

/-- C1 (witness): concrete mismatch case of the amended claim in the
batch path. -/
theorem claim1_witness :
    (batchStatusOne
        [(cacheKey "P" "W" "b.md",
          { path := "b.md", status := .translated, modified := none, lastHash := some "k1" })]
        "P" "W" "b.md" [("b.md", "k2")] []).status = TrStatus.outdated ∧
    (batchStatusOne
        [(cacheKey "P" "W" "b.md",
          { path := "b.md", status := .translated, modified := none, lastHash := some "k1" })]
        "P" "W" "b.md" [("b.md", "k2")] []).lastHash = some "k2" :=
  (claim1_theorem
    [(cacheKey "P" "W" "b.md",
      { path := "b.md", status := .translated, modified := none, lastHash := some "k1" })]
    "P" "b.md" "up" "W" false false
    { path := "b.md", status := .translated, modified := none, lastHash := some "k1" }
    none [("b.md", "k2")] [] "k2"
    (by decide) (by decide) (by decide) (by decide)).2.2.2 (by decide)

/-- C2 (counterexample): in batch reconciliation, a path that exists
upstream (hash "h1" in the bulk map) with no cache entry gets status
untranslated, but the resulting record's `lastHash` is `some "h1"`, not
absent — refuting the claim that no lastHash is recorded in the result. -/
theorem claim2_counterexample :
    (batchStatusOne [] "P" "W" "a.md" [("a.md", "h1")] []).status = TrStatus.untranslated ∧
    (batchStatusOne [] "P" "W" "a.md" [("a.md", "h1")] []).lastHash = some "h1" ∧
    (batchStatusOne [] "P" "W" "a.md" [("a.md", "h1")] []).lastHash ≠ none := by
  refine ⟨?_, ?_, ?_⟩ <;> decide

/-- C2 (amended): for a path that exists upstream with no prior cache
entry carrying a recorded hash, the single-path fresh computation
returns untranslated with no `lastHash`, regardless of local file
existence; batch reconciliation with no cache entry also returns
untranslated — the cache records nothing — but the result record's
`lastHash` field carries the bulk map's current upstream hash. -/
theorem claim2_theorem
    (statusCache : List (String × FileStatus))
    (projectPath filePath upstreamBranch workingBranch : String)
    (localExists modified : Bool) (upstreamHash : Option String)
    (uMap : List (String × String)) (mMap : List (String × Bool))
    (hmiss : ∀ c, mapLookup statusCache (cacheKey projectPath workingBranch filePath) = some c →
      strTruthy c.lastHash = false) :
    ((calculateFileStatus statusCache projectPath filePath upstreamBranch workingBranch
        true localExists modified upstreamHash).status = TrStatus.untranslated ∧
     (calculateFileStatus statusCache projectPath filePath upstreamBranch workingBranch
        true localExists modified upstreamHash).lastHash = none) ∧
    (mapLookup statusCache (cacheKey projectPath workingBranch filePath) = none →
      (batchStatusOne statusCache projectPath workingBranch filePath uMap mMap).status =
        TrStatus.untranslated ∧
      (batchStatusOne statusCache projectPath workingBranch filePath uMap mMap).lastHash =
        mapLookup uMap filePath) := by
  constructor
  · cases hcl : mapLookup statusCache (cacheKey projectPath workingBranch filePath) with
    | none => simp [calculateFileStatus, hcl]
    | some c =>
        have := hmiss c hcl
        simp [calculateFileStatus, hcl, this]
  · intro hnone
    constructor <;> simp [batchStatusOne, hnone]

/-- C2 (witness): concrete no-entry case with a local file present
(`localExists = true`): still untranslated with no hash on the single
path. -/
theorem claim2_witness :
    ((calculateFileStatus [] "P" "a.md" "up" "W" true true false
        (some "h1")).status = TrStatus.untranslated ∧
     (calculateFileStatus [] "P" "a.md" "up" "W" true true false
        (some "h1")).lastHash = none) ∧
    (mapLookup ([] : List (String × FileStatus)) (cacheKey "P" "W" "a.md") = none →
      (batchStatusOne [] "P" "W" "a.md" [("a.md", "h1")] []).status = TrStatus.untranslated ∧
      (batchStatusOne [] "P" "W" "a.md" [("a.md", "h1")] []).lastHash =
        mapLookup [("a.md", "h1")] "a.md") :=
  claim2_theorem [] "P" "a.md" "up" "W" true false (some "h1") [("a.md", "h1")] []
    (by intro c hc; simp [mapLookup] at hc)

/-- C3 (counterexample): when `getFileBlobHash` fails (returns null),
`translateFile` still stores a cache entry with status translated and no
`lastHash` — refuting the claim that every translated entry carries a
present hash. -/
theorem claim3_counterexample :
    (translateFileEntry "docs/a.md" none).status = TrStatus.translated ∧
    (translateFileEntry "docs/a.md" none).lastHash = none := by
  constructor <;> decide

/-- C3 (amended): a FileStatus produced by the single-path fresh
computation with status translated or outdated always carries a present
`lastHash`; the cache entry written by `translateFile` carries the
upstream blob hash whenever the blob-hash lookup succeeds (returns a
nonempty hash), but if the lookup fails the entry is stored with status
translated and `lastHash` absent (and batch records with a cached entry
but no upstream bulk-map entry can likewise carry a translated or
outdated status with `lastHash` absent). -/
theorem claim3_theorem
    (statusCache : List (String × FileStatus))
    (projectPath filePath upstreamBranch workingBranch : String)
    (upstreamExists localExists modified : Bool) (upstreamHash : Option String)
    (hpers : persistedStatus (calculateFileStatus statusCache projectPath filePath
      upstreamBranch workingBranch upstreamExists localExists modified
      upstreamHash).status = true) :
    (calculateFileStatus statusCache projectPath filePath upstreamBranch workingBranch
      upstreamExists localExists modified upstreamHash).lastHash.isSome = true ∧
    (∀ fp hsh, strTruthy hsh = true → (translateFileEntry fp hsh).lastHash = hsh ∧
      (translateFileEntry fp hsh).status = TrStatus.translated) := by
  constructor
  · by_cases hue : upstreamExists
    · cases hcl : mapLookup statusCache (cacheKey projectPath workingBranch filePath) with
      | none => simp [calculateFileStatus, hue, hcl, persistedStatus] at hpers
      | some c =>
          by_cases hrec : strTruthy c.lastHash
          · by_cases hcond : (strTruthy upstreamHash && (c.lastHash == upstreamHash)) = true
            · have : strTruthy upstreamHash = true := by
                cases hb : strTruthy upstreamHash <;> simp_all
              simp [calculateFileStatus, hue, hcl, hrec, hcond, strTruthy_isSome this]
            · simp [calculateFileStatus, hue, hcl, hrec, hcond, strTruthy_isSome hrec]
          · simp [calculateFileStatus, hue, hcl, hrec, persistedStatus] at hpers
    · simp [calculateFileStatus, hue, persistedStatus] at hpers
  · intro fp hsh hh
    constructor <;> simp [translateFileEntry, hh]

/-- C3 (witness): concrete outdated case: the single-path result keeps a
present hash, and a successful blob-hash lookup is stored verbatim. -/
theorem claim3_witness :
    (calculateFileStatus
        [(cacheKey "P" "W" "a.md",
          { path := "a.md", status := .translated, modified := none, lastHash := some "h1" })]
        "P" "a.md" "up" "W" true false false (some "h2")).lastHash.isSome = true ∧
    (∀ fp hsh, strTruthy hsh = true → (translateFileEntry fp hsh).lastHash = hsh ∧
      (translateFileEntry fp hsh).status = TrStatus.translated) :=
  claim3_theorem
    [(cacheKey "P" "W" "a.md",
      { path := "a.md", status := .translated, modified := none, lastHash := some "h1" })]
    "P" "a.md" "up" "W" true false false (some "h2") (by decide)

/-- C4 (counterexample): with a missing (or unparseable) persisted
status file, `loadStatusCache` leaves a previously nonempty in-memory
cache untouched instead of emptying it — refuting the claim that the
cache is empty after such a load. -/
theorem claim4_counterexample :
    loadStatusCache
      [(cacheKey "P" "W" "a.md",
        { path := "a.md", status := .translated, modified := none, lastHash := some "h1" })]
      "P" "W" none ≠ [] := by
  decide

/-- C4 (amended): `loadStatusCache` raises no error in any case; when
the persisted file is missing or unparseable it leaves the in-memory
cache unchanged (so the cache is empty only if it already was), and when
the file parses it replaces the cache with exactly the file's entries
keyed for that project and branch. -/
theorem claim4_theorem (statusCache : List (String × FileStatus))
    (projectPath workingBranch : String) (entries : List (String × FileStatus)) :
    loadStatusCache statusCache projectPath workingBranch none = statusCache ∧
    loadStatusCache statusCache projectPath workingBranch (some entries) =
      entries.map (fun kv => (cacheKey projectPath workingBranch kv.1, kv.2)) := by
  exact ⟨rfl, rfl⟩

/-- C6: when the filtered entry set for a branch is empty, save deletes
the persisted status file (no entry remains for its path afterwards, and
never an empty object), and the operation is total — an unlink of an
already-absent file is swallowed, not an error. -/
theorem claim6_theorem (projectPath workingBranch : String)
    (statusCache : List (String × FileStatus)) (fs : StatusFS)
    (hempty : savedEntries projectPath workingBranch statusCache = []) :
    saveStatusCacheFS projectPath workingBranch statusCache fs =
      mapErase fs (statusFilePath projectPath workingBranch) ∧
    mapLookup (saveStatusCacheFS projectPath workingBranch statusCache fs)
      (statusFilePath projectPath workingBranch) = none := by
  constructor
  · simp [saveStatusCacheFS, hempty]
  · simp [saveStatusCacheFS, hempty, mapLookup_mapErase_self]

/-- C6 (witness): a cache holding only an untranslated entry for this
branch saves to a deletion of the (absent) status file. -/
theorem claim6_witness :
    saveStatusCacheFS "P" "main"
      [(cacheKey "P" "main" "a.md",
        { path := "a.md", status := .untranslated, modified := none, lastHash := none })] [] =
      mapErase [] (statusFilePath "P" "main") ∧
    mapLookup (saveStatusCacheFS "P" "main"
      [(cacheKey "P" "main" "a.md",
        { path := "a.md", status := .untranslated, modified := none, lastHash := none })] [])
      (statusFilePath "P" "main") = none :=
  claim6_theorem "P" "main"
    [(cacheKey "P" "main" "a.md",
      { path := "a.md", status := .untranslated, modified := none, lastHash := none })] []
    (by decide)

/-- C7: on a cache hit, `getFileStatus` returns the cached entry with
only `modified` recomputed from the live working tree; the returned
status and lastHash are the cached ones, the cache entry keeps its
status and lastHash (only its `modified` field is rewritten, by the
in-place object mutation), and no other cache entry changes. -/
theorem claim7_theorem (statusCache : List (String × FileStatus))
    (projectPath filePath upstreamBranch workingBranch : String)
    (upstreamExists localExists modified : Bool) (upstreamHash : Option String)
    (c : FileStatus)
    (hc : mapLookup statusCache (cacheKey projectPath workingBranch filePath) = some c) :
    (getFileStatus statusCache projectPath filePath upstreamBranch workingBranch
        upstreamExists localExists modified upstreamHash).1.status = c.status ∧
    (getFileStatus statusCache projectPath filePath upstreamBranch workingBranch
        upstreamExists localExists modified upstreamHash).1.lastHash = c.lastHash ∧
    (getFileStatus statusCache projectPath filePath upstreamBranch workingBranch
        upstreamExists localExists modified upstreamHash).1.modified = some modified ∧
    mapLookup (getFileStatus statusCache projectPath filePath upstreamBranch workingBranch
        upstreamExists localExists modified upstreamHash).2
      (cacheKey projectPath workingBranch filePath) =
      some { c with modified := some modified } ∧
    (∀ k, k ≠ cacheKey projectPath workingBranch filePath →
      mapLookup (getFileStatus statusCache projectPath filePath upstreamBranch workingBranch
          upstreamExists localExists modified upstreamHash).2 k = mapLookup statusCache k) := by
  refine ⟨?_, ?_, ?_, ?_, ?_⟩
  · simp [getFileStatus, hc]
  · simp [getFileStatus, hc]
  · simp [getFileStatus, hc]
  · simp [getFileStatus, hc, mapLookup_mapSet_self]
  · intro k hk
    simp only [getFileStatus, hc]
    exact mapLookup_mapSet_ne _ _ _ _ hk

/-- C7 (witness): concrete cache hit with a stale modified flag. -/
theorem claim7_witness :
    (getFileStatus
        [(cacheKey "P" "W" "a.md",
          { path := "a.md", status := .outdated, modified := some false, lastHash := some "h1" })]
        "P" "a.md" "up" "W" true true true none).1.status = TrStatus.outdated ∧
    (getFileStatus
        [(cacheKey "P" "W" "a.md",
          { path := "a.md", status := .outdated, modified := some false, lastHash := some "h1" })]
        "P" "a.md" "up" "W" true true true none).1.lastHash = some "h1" :=
  have h := claim7_theorem
    [(cacheKey "P" "W" "a.md",
      { path := "a.md", status := .outdated, modified := some false, lastHash := some "h1" })]
    "P" "a.md" "up" "W" true true true none
    { path := "a.md", status := .outdated, modified := some false, lastHash := some "h1" }
    (by decide)
  ⟨h.1, h.2.1⟩

/-- C10: when `getFileStatus` misses the in-memory cache, the fresh
computation looks the prior entry up under the very key that just
missed, so it always yields untranslated with no lastHash, and the cache
is left unchanged (untranslated results are not cached); hence a
single-path call can return translated or outdated only from a
pre-existing cache entry. -/
theorem claim10_theorem (statusCache : List (String × FileStatus))
    (projectPath filePath upstreamBranch workingBranch : String)
    (upstreamExists localExists modified : Bool) (upstreamHash : Option String)
    (hmiss : mapLookup statusCache (cacheKey projectPath workingBranch filePath) = none) :
    (getFileStatus statusCache projectPath filePath upstreamBranch workingBranch
        upstreamExists localExists modified upstreamHash).1.status = TrStatus.untranslated ∧
    (getFileStatus statusCache projectPath filePath upstreamBranch workingBranch
        upstreamExists localExists modified upstreamHash).1.lastHash = none ∧
    (getFileStatus statusCache projectPath filePath upstreamBranch workingBranch
        upstreamExists localExists modified upstreamHash).2 = statusCache := by
  have hcalc : calculateFileStatus statusCache projectPath filePath upstreamBranch
      workingBranch upstreamExists localExists modified upstreamHash =
      { path := filePath, status := .untranslated, modified := some modified,
        lastHash := none } := by
    by_cases hue : upstreamExists <;> simp [calculateFileStatus, hue, hmiss]
  refine ⟨?_, ?_, ?_⟩ <;> simp [getFileStatus, hmiss, hcalc, persistedStatus]

/-- C10 (witness): a cache miss with the file present both upstream and
locally still computes untranslated and writes nothing. -/
theorem claim10_witness :
    (getFileStatus [] "P" "a.md" "up" "W" true true false (some "h1")).1.status =
      TrStatus.untranslated ∧
    (getFileStatus [] "P" "a.md" "up" "W" true true false (some "h1")).1.lastHash = none ∧
    (getFileStatus [] "P" "a.md" "up" "W" true true false (some "h1")).2 = [] :=
  claim10_theorem [] "P" "a.md" "up" "W" true true false (some "h1") (by decide)

theorem mapLookup_eq_none_of_not_mem_keys {α : Type _} {m : List (String × α)} {k : String}
    (h : k ∉ m.map Prod.fst) : mapLookup m k = none := by
  induction m with
  | nil => rfl
  | cons kv rest ih =>
      obtain ⟨k1, v1⟩ := kv
      simp only [List.map_cons, List.mem_cons, not_or] at h
      simp only [mapLookup, if_neg (fun he : k1 = k => h.1 he.symm)]
      exact ih h.2

theorem savedEntries_lookup (pre : String) (m : List (String × FileStatus))
    (hnd : (m.map Prod.fst).Nodup) (p : String) (s : FileStatus) :
    mapLookup ((m.filter (fun kv => strStartsWith kv.1 pre && persistedStatus kv.2.status)).map
        (fun kv => (strSubstringFrom kv.1 (strLen pre), kv.2))) p = some s ↔
      (mapLookup m (pre ++ p) = some s ∧ persistedStatus s.status = true) := by
  induction m with
  | nil => simp [mapLookup]
  | cons kv rest ih =>
      obtain ⟨k, v⟩ := kv
      simp only [List.map_cons, List.nodup_cons] at hnd
      by_cases hkey : k = pre ++ p
      · subst hkey
        have hsw : strStartsWith (pre ++ p) pre = true := strStartsWith_append pre p
        by_cases hpv : persistedStatus v.status = true
        · simp only [List.filter_cons, hsw, hpv, Bool.and_self, if_pos rfl, List.map_cons,
            strSubstringFrom_append, mapLookup, if_pos rfl]
          constructor
          · rintro h
            cases h
            exact ⟨rfl, hpv⟩
          · rintro ⟨h, _⟩
            cases h
            rfl
        · have hfilter : (strStartsWith (pre ++ p) pre && persistedStatus v.status) = false := by
            simp [hsw, hpv]
          have hrest : mapLookup rest (pre ++ p) = none :=
            mapLookup_eq_none_of_not_mem_keys hnd.1
          simp only [List.filter_cons, hfilter, if_neg Bool.false_ne_true, mapLookup, if_pos rfl,
            ih hnd.2, hrest]
          constructor
          · rintro ⟨h, _⟩
            cases h
          · rintro ⟨h, hps⟩
            cases h
            exact absurd hps hpv
      · by_cases hP : (strStartsWith k pre && persistedStatus v.status) = true
        · have hsw : strStartsWith k pre = true := by
            cases hb : strStartsWith k pre
            · simp [hb] at hP
            · rfl
          have hsub : strSubstringFrom k (strLen pre) ≠ p := by
            intro he
            apply hkey
            rw [← strStartsWith_decomp hsw, he]
          simp only [List.filter_cons, hP, if_pos rfl, List.map_cons, mapLookup,
            if_neg hsub, ih hnd.2, if_neg hkey]
        · simp only [List.filter_cons, if_neg hP, mapLookup, if_neg hkey, ih hnd.2]

/-- C5: after save, the persisted object for a project and working
branch contains exactly the paths whose in-memory cached status under
that project-and-branch key is translated or outdated — an entry is
persisted at path p with value s iff the cache holds s under the key
`${projectPath}:${workingBranch}:${p}` and s is translated or outdated;
in particular no untranslated entry and nothing keyed for another
project or branch is persisted. -/
theorem claim5_theorem (projectPath workingBranch : String)
    (statusCache : List (String × FileStatus))
    (hnd : (statusCache.map Prod.fst).Nodup) (p : String) (s : FileStatus) :
    mapLookup (savedEntries projectPath workingBranch statusCache) p = some s ↔
      (mapLookup statusCache (branchPrefixStr projectPath workingBranch ++ p) = some s ∧
       persistedStatus s.status = true) := by
  exact savedEntries_lookup (branchPrefixStr projectPath workingBranch) statusCache hnd p s

/-- C5 (witness): a cache holding a translated entry for this branch, an
untranslated entry for this branch and an entry of another branch
persists exactly the translated one. -/
theorem claim5_witness :
    (mapLookup (savedEntries "P" "main"
        [(cacheKey "P" "main" "a.md",
          { path := "a.md", status := .translated, modified := none, lastHash := some "h1" }),
         (cacheKey "P" "main" "b.md",
          { path := "b.md", status := .untranslated, modified := none, lastHash := none }),
         (cacheKey "P" "dev" "a.md",
          { path := "a.md", status := .outdated, modified := none, lastHash := some "h0" })])
      "a.md" =
        some { path := "a.md", status := .translated, modified := none, lastHash := some "h1" }) ↔
      (mapLookup
        ([(cacheKey "P" "main" "a.md",
          { path := "a.md", status := .translated, modified := none, lastHash := some "h1" }),
         (cacheKey "P" "main" "b.md",
          { path := "b.md", status := .untranslated, modified := none, lastHash := none }),
         (cacheKey "P" "dev" "a.md",
          { path := "a.md", status := .outdated, modified := none, lastHash := some "h0" })] :
            List (String × FileStatus))
        (branchPrefixStr "P" "main" ++ "a.md") =
          some { path := "a.md", status := .translated, modified := none, lastHash := some "h1" } ∧
       persistedStatus TrStatus.translated = true) :=
  claim5_theorem "P" "main"
    [(cacheKey "P" "main" "a.md",
      { path := "a.md", status := .translated, modified := none, lastHash := some "h1" }),
     (cacheKey "P" "main" "b.md",
      { path := "b.md", status := .untranslated, modified := none, lastHash := none }),
     (cacheKey "P" "dev" "a.md",
      { path := "a.md", status := .outdated, modified := none, lastHash := some "h0" })]
    (by decide) "a.md"
    { path := "a.md", status := .translated, modified := none, lastHash := some "h1" }

/-- In-memory mutable state of the FileManager relevant to status
computation: the status cache and the upstream-hash cache (keyed by
`${projectPath}:upstream/${upstreamBranch}`). -/
structure EngineState where
  statusCache : List (String × FileStatus)
  upstreamHashCache : List (String × List (String × String))
deriving DecidableEq

/-- External world as seen by one `getFileTree` run: the parse result of
the persisted branch status file (`none` = missing or corrupt), the
scanned candidate file list (gitignore rules and directory walk folded
in, constant while the working tree is unchanged), the
`git ls-tree -r upstream/<branch>` bulk result (`none` = command
failure), and the bulk modified map from `git status --porcelain`. -/
structure TreeWorld where
  statusFile : Option (List (String × FileStatus))
  scannedFiles : List String
  bulkHashes : Option (List (String × String))
  modifiedMap : List (String × Bool)
deriving DecidableEq

/-- The upstream-hash cache key `${projectPath}:upstream/${upstreamBranch}`. -/
def upstreamCacheKey (projectPath upstreamBranch : String) : String :=
  projectPath ++ ":upstream/" ++ upstreamBranch

/-- `getBatchUpstreamHashes` (fileManager, part_001 lines 794-846): a
cache hit returns the cached map unchanged; otherwise a successful bulk
listing is cached and returned, and a failed one returns the partial
(empty) map without caching it. -/
def getBatchUpstreamHashes (st : EngineState) (projectPath upstreamBranch : String)
    (bulk : Option (List (String × String))) :
    (List (String × String)) × EngineState :=
  let key := upstreamCacheKey projectPath upstreamBranch
  match mapLookup st.upstreamHashCache key with
  | some m => (m, st)
  | none =>
      match bulk with
      | some m => (m, { st with upstreamHashCache := mapSet st.upstreamHashCache key m })
      | none => ([], st)

/-- The `hasTranslatedFiles` check of `getFileTree` (part_001 lines
989-992). -/
def hasTranslatedFiles (statusMap : List (String × FileStatus)) : Bool :=
  statusMap.any (fun kv => persistedStatus kv.2.status)

/-- The status-relevant pipeline of `getFileTree` (fileManager, part_001
lines 937-1002): load the branch status cache from the persisted file,
fetch the bulk maps, compute the status map with
`batchCalculateFileStatus`, and, when any path came out translated or
outdated, persist the (unchanged by the batch step) status cache —
writing the filtered entries, or deleting the file when the filtered set
is empty.  Returns the status map together with the engine state and the
persisted file after the call.  Tree building and file sizes do not
affect statuses and are omitted. -/
def getFileTreeStatus (st : EngineState) (w : TreeWorld)
    (projectPath upstreamBranch workingBranch : String) :
    (List (String × FileStatus)) × EngineState × TreeWorld :=
  let cache1 := loadStatusCache st.statusCache projectPath workingBranch w.statusFile
  let st1 : EngineState := { st with statusCache := cache1 }
  let fetched := getBatchUpstreamHashes st1 projectPath upstreamBranch w.bulkHashes
  let statusMap := batchCalculateFileStatus cache1 projectPath workingBranch
    w.scannedFiles fetched.1 w.modifiedMap
  let w1 :=
    if hasTranslatedFiles statusMap then
      let obj := savedEntries projectPath workingBranch cache1
      { w with statusFile := if obj.isEmpty then none else some obj }
    else w
  (statusMap, fetched.2, w1)

theorem savedEntries_of_loaded (projectPath workingBranch : String)
    (entries : List (String × FileStatus))
    (hpers : ∀ e ∈ entries, persistedStatus e.2.status = true) :
    savedEntries projectPath workingBranch
      (entries.map (fun kv => (cacheKey projectPath workingBranch kv.1, kv.2))) = entries := by
  induction entries with
  | nil => rfl
  | cons kv rest ih =>
      obtain ⟨p, v⟩ := kv
      have hv : persistedStatus v.status = true := hpers (p, v) (List.mem_cons_self _ _)
      have hrest : ∀ e ∈ rest, persistedStatus e.2.status = true :=
        fun e he => hpers e (List.mem_cons_of_mem _ he)
      have hkey : cacheKey projectPath workingBranch p =
          branchPrefixStr projectPath workingBranch ++ p := cacheKey_eq_append _ _ _
      simp only [savedEntries, List.map_cons, List.filter_cons] at ih ⊢
      rw [hkey, strStartsWith_append, hv]
      simp only [Bool.and_self, if_true, reduceIte, List.map_cons, strSubstringFrom_append]
      exact congrArg _ (ih hrest)

theorem batchStatusOne_cache_congr (c1 c2 : List (String × FileStatus))
    (projectPath workingBranch filePath : String)
    (uMap : List (String × String)) (mMap : List (String × Bool))
    (h : mapLookup c2 (cacheKey projectPath workingBranch filePath) =
      mapLookup c1 (cacheKey projectPath workingBranch filePath)) :
    batchStatusOne c2 projectPath workingBranch filePath uMap mMap =
      batchStatusOne c1 projectPath workingBranch filePath uMap mMap := by
  simp only [batchStatusOne, h]

theorem batchCalculate_cache_congr (c1 c2 : List (String × FileStatus))
    (projectPath workingBranch : String) (files : List String)
    (uMap : List (String × String)) (mMap : List (String × Bool))
    (h : ∀ f ∈ files, mapLookup c2 (cacheKey projectPath workingBranch f) =
      mapLookup c1 (cacheKey projectPath workingBranch f)) :
    batchCalculateFileStatus c2 projectPath workingBranch files uMap mMap =
      batchCalculateFileStatus c1 projectPath workingBranch files uMap mMap := by
  simp only [batchCalculateFileStatus]
  exact List.map_congr_left (fun f hf =>
    congrArg _ (batchStatusOne_cache_congr c1 c2 projectPath workingBranch f uMap mMap (h f hf)))

theorem getBatchUpstreamHashes_statusCache (st : EngineState) (pp ub : String)
    (bulk : Option (List (String × String))) :
    (getBatchUpstreamHashes st pp ub bulk).2.statusCache = st.statusCache := by
  cases hl : mapLookup st.upstreamHashCache (upstreamCacheKey pp ub) <;> cases bulk <;>
    simp [getBatchUpstreamHashes, hl]

theorem getBatchUpstreamHashes_stable (st st2 : EngineState) (pp ub : String)
    (bulk : Option (List (String × String)))
    (h : st2.upstreamHashCache = (getBatchUpstreamHashes st pp ub bulk).2.upstreamHashCache) :
    (getBatchUpstreamHashes st2 pp ub bulk).1 = (getBatchUpstreamHashes st pp ub bulk).1 := by
  cases hl : mapLookup st.upstreamHashCache (upstreamCacheKey pp ub) with
  | some m =>
      have h2 : st2.upstreamHashCache = st.upstreamHashCache := by
        simpa [getBatchUpstreamHashes, hl] using h
      simp [getBatchUpstreamHashes, h2, hl]
  | none =>
      cases bulk with
      | some m =>
          have h2 : st2.upstreamHashCache =
              mapSet st.upstreamHashCache (upstreamCacheKey pp ub) m := by
            simpa [getBatchUpstreamHashes, hl] using h
          simp [getBatchUpstreamHashes, h2, hl, mapLookup_mapSet_self]
      | none =>
          have h2 : st2.upstreamHashCache = st.upstreamHashCache := by
            simpa [getBatchUpstreamHashes, hl] using h
          simp [getBatchUpstreamHashes, h2, hl]

theorem batchStatusOne_persisted_requires_cached
    (c : List (String × FileStatus)) (pp wb f : String)
    (u : List (String × String)) (m : List (String × Bool))
    (h : persistedStatus (batchStatusOne c pp wb f u m).status = true) :
    ∃ v, mapLookup c (cacheKey pp wb f) = some v := by
  cases hl : mapLookup c (cacheKey pp wb f) with
  | some v => exact ⟨v, rfl⟩
  | none =>
      exfalso
      simp [batchStatusOne, hl, persistedStatus] at h

theorem loaded_all_persisted (c : List (String × FileStatus)) (pp wb : String)
    (file : Option (List (String × FileStatus)))
    (hfile : ∀ entries, file = some entries → ∀ e ∈ entries, persistedStatus e.2.status = true)
    (hcache : ∀ e ∈ c, persistedStatus e.2.status = true) :
    ∀ e ∈ loadStatusCache c pp wb file, persistedStatus e.2.status = true := by
  cases hf : file with
  | none => simpa [loadStatusCache] using hcache
  | some entries =>
      intro e he
      simp only [loadStatusCache] at he
      obtain ⟨kv, hkv, hekv⟩ := List.mem_map.mp he
      rw [← hekv]
      exact hfile entries hf kv hkv

theorem loaded_saved_eq_filter (pp wb : String) (cache : List (String × FileStatus))
    (hpers : ∀ e ∈ cache, persistedStatus e.2.status = true) :
    (savedEntries pp wb cache).map (fun kv => (cacheKey pp wb kv.1, kv.2)) =
      cache.filter (fun kv => strStartsWith kv.1 (branchPrefixStr pp wb)) := by
  induction cache with
  | nil => rfl
  | cons kv rest ih =>
      obtain ⟨k, v⟩ := kv
      have hv : persistedStatus v.status = true := hpers (k, v) (List.mem_cons_self _ _)
      have hrest : ∀ e ∈ rest, persistedStatus e.2.status = true :=
        fun e he => hpers e (List.mem_cons_of_mem _ he)
      by_cases hsw : strStartsWith k (branchPrefixStr pp wb) = true
      · have hkrec : cacheKey pp wb (strSubstringFrom k (strLen (branchPrefixStr pp wb))) = k := by
          rw [cacheKey_eq_append]
          exact strStartsWith_decomp hsw
        simp only [savedEntries, List.filter_cons, hsw, hv, Bool.and_self, if_true, reduceIte,
          List.map_cons, hkrec] at ih ⊢
        rw [ih hrest]
      · have hswf : strStartsWith k (branchPrefixStr pp wb) = false := by
          cases hb : strStartsWith k (branchPrefixStr pp wb)
          · rfl
          · exact absurd hb hsw
        simp only [savedEntries, List.filter_cons, hswf, Bool.false_and,
          if_neg Bool.false_ne_true, List.map_cons] at ih ⊢
        exact ih hrest

theorem reload_saved_lookup (pp wb : String) (c0 cache : List (String × FileStatus))
    (hpers : ∀ e ∈ cache, persistedStatus e.2.status = true) (f : String) :
    mapLookup (loadStatusCache c0 pp wb (some (savedEntries pp wb cache)))
      (cacheKey pp wb f) = mapLookup cache (cacheKey pp wb f) := by
  show mapLookup ((savedEntries pp wb cache).map (fun kv => (cacheKey pp wb kv.1, kv.2)))
      (cacheKey pp wb f) = mapLookup cache (cacheKey pp wb f)
  rw [loaded_saved_eq_filter pp wb cache hpers]
  exact mapLookup_filter_key cache (fun k1 => strStartsWith k1 (branchPrefixStr pp wb))
    (cacheKey pp wb f)
    (by rw [cacheKey_eq_append]; exact strStartsWith_append _ _)

theorem savedEntries_isEmpty_false (pp wb f : String) (cache : List (String × FileStatus))
    (v : FileStatus) (hv : mapLookup cache (cacheKey pp wb f) = some v)
    (hpers : ∀ e ∈ cache, persistedStatus e.2.status = true) :
    (savedEntries pp wb cache).isEmpty = false := by
  have hmem : (cacheKey pp wb f, v) ∈ cache := mapLookup_mem hv
  have hQ : (strStartsWith (cacheKey pp wb f) (branchPrefixStr pp wb) &&
      persistedStatus v.status) = true := by
    rw [cacheKey_eq_append, strStartsWith_append, hpers _ hmem]
    rfl
  have hmemf : (cacheKey pp wb f, v) ∈ cache.filter
      (fun kv => strStartsWith kv.1 (branchPrefixStr pp wb) && persistedStatus kv.2.status) :=
    List.mem_filter.mpr ⟨hmem, hQ⟩
  have hne : cache.filter
      (fun kv => strStartsWith kv.1 (branchPrefixStr pp wb) && persistedStatus kv.2.status) ≠ [] :=
    List.ne_nil_of_mem hmemf
  simp only [savedEntries, List.isEmpty_eq_false, ne_eq, List.map_eq_nil]
  exact hne

theorem loadStatusCache_idem (c : List (String × FileStatus)) (pp wb : String)
    (file : Option (List (String × FileStatus))) :
    loadStatusCache (loadStatusCache c pp wb file) pp wb file =
      loadStatusCache c pp wb file := by
  cases file <;> rfl

/-- C9: calling the status pipeline of getFileTree twice with the same
arguments, an unchanged world (same persisted-file parse, scan result,
bulk upstream listing and working-tree modified map — no intervening
writes, translations, fetches, cache clears or sync), and a well-formed
starting state (every persisted-file entry and every in-memory cache
entry has status translated or outdated, which is all the engine itself
ever loads or caches) yields the identical per-path status map — same
status, modified and lastHash for every path — on both calls. -/
theorem claim9_theorem (st : EngineState) (w : TreeWorld)
    (projectPath upstreamBranch workingBranch : String)
    (hfile : ∀ entries, w.statusFile = some entries →
      ∀ e ∈ entries, persistedStatus e.2.status = true)
    (hcache : ∀ e ∈ st.statusCache, persistedStatus e.2.status = true) :
    (getFileTreeStatus
        (getFileTreeStatus st w projectPath upstreamBranch workingBranch).2.1
        (getFileTreeStatus st w projectPath upstreamBranch workingBranch).2.2
        projectPath upstreamBranch workingBranch).1 =
      (getFileTreeStatus st w projectPath upstreamBranch workingBranch).1 := by
  have hc1 : ∀ e ∈ loadStatusCache st.statusCache projectPath workingBranch w.statusFile,
      persistedStatus e.2.status = true :=
    loaded_all_persisted st.statusCache projectPath workingBranch w.statusFile hfile hcache
  set cache1 := loadStatusCache st.statusCache projectPath workingBranch w.statusFile with hdefc1
  set st1 : EngineState := { st with statusCache := cache1 } with hdefst1
  set fetched := getBatchUpstreamHashes st1 projectPath upstreamBranch w.bulkHashes
    with hdeffetched
  set sm1 := batchCalculateFileStatus cache1 projectPath workingBranch w.scannedFiles
    fetched.1 w.modifiedMap with hdefsm1
  have hrun1 : getFileTreeStatus st w projectPath upstreamBranch workingBranch =
      (sm1, fetched.2,
        if hasTranslatedFiles sm1 then
          { w with statusFile :=
              if (savedEntries projectPath workingBranch cache1).isEmpty then none
              else some (savedEntries projectPath workingBranch cache1) }
        else w) := rfl
  by_cases hT : hasTranslatedFiles sm1 = true
  · obtain ⟨kv, hkvmem, hkvp⟩ := List.any_eq_true.mp hT
    obtain ⟨f, hfmem, hkv⟩ := List.mem_map.mp hkvmem
    have hex : ∃ v, mapLookup cache1 (cacheKey projectPath workingBranch f) = some v := by
      apply batchStatusOne_persisted_requires_cached cache1 projectPath workingBranch f
        fetched.1 w.modifiedMap
      rw [← hkv] at hkvp
      exact hkvp
    obtain ⟨v, hv⟩ := hex
    have hoe : (savedEntries projectPath workingBranch cache1).isEmpty = false :=
      savedEntries_isEmpty_false projectPath workingBranch f cache1 v hv hc1
    have hw1 : (getFileTreeStatus st w projectPath upstreamBranch workingBranch).2.2 =
        { w with statusFile := some (savedEntries projectPath workingBranch cache1) } := by
      rw [hrun1]
      simp [hT, hoe]
    have hst2 : (getFileTreeStatus st w projectPath upstreamBranch workingBranch).2.1 =
        fetched.2 := by rw [hrun1]
    rw [hrun1]
    show (getFileTreeStatus
        (getFileTreeStatus st w projectPath upstreamBranch workingBranch).2.1
        (getFileTreeStatus st w projectPath upstreamBranch workingBranch).2.2
        projectPath upstreamBranch workingBranch).1 = sm1
    rw [hst2, hw1]
    show batchCalculateFileStatus
        (loadStatusCache fetched.2.statusCache projectPath workingBranch
          (some (savedEntries projectPath workingBranch cache1)))
        projectPath workingBranch w.scannedFiles
        (getBatchUpstreamHashes
          { fetched.2 with statusCache :=
              (loadStatusCache fetched.2.statusCache projectPath workingBranch
                (some (savedEntries projectPath workingBranch cache1))) }
          projectPath upstreamBranch w.bulkHashes).1
        w.modifiedMap = sm1
    have hu2 := getBatchUpstreamHashes_stable st1
      { fetched.2 with statusCache :=
          (loadStatusCache fetched.2.statusCache projectPath workingBranch
            (some (savedEntries projectPath workingBranch cache1))) }
      projectPath upstreamBranch w.bulkHashes rfl
    rw [hu2, ← hdeffetched]
    rw [batchCalculate_cache_congr cache1
      (loadStatusCache fetched.2.statusCache projectPath workingBranch
        (some (savedEntries projectPath workingBranch cache1)))
      projectPath workingBranch w.scannedFiles fetched.1 w.modifiedMap
      (fun g _ => reload_saved_lookup projectPath workingBranch fetched.2.statusCache cache1 hc1 g)]
  · have hTf : hasTranslatedFiles sm1 = false := by
      cases hb : hasTranslatedFiles sm1
      · rfl
      · exact absurd hb hT
    have hw1 : (getFileTreeStatus st w projectPath upstreamBranch workingBranch).2.2 = w := by
      rw [hrun1]
      simp [hTf]
    have hst2 : (getFileTreeStatus st w projectPath upstreamBranch workingBranch).2.1 =
        fetched.2 := by rw [hrun1]
    rw [hrun1]
    show (getFileTreeStatus
        (getFileTreeStatus st w projectPath upstreamBranch workingBranch).2.1
        (getFileTreeStatus st w projectPath upstreamBranch workingBranch).2.2
        projectPath upstreamBranch workingBranch).1 = sm1
    rw [hst2, hw1]
    show batchCalculateFileStatus
        (loadStatusCache fetched.2.statusCache projectPath workingBranch w.statusFile)
        projectPath workingBranch w.scannedFiles
        (getBatchUpstreamHashes
          { fetched.2 with statusCache :=
              loadStatusCache fetched.2.statusCache projectPath workingBranch w.statusFile }
          projectPath upstreamBranch w.bulkHashes).1
        w.modifiedMap = sm1
    have hload2 : loadStatusCache fetched.2.statusCache projectPath workingBranch
        w.statusFile = cache1 := by
      rw [getBatchUpstreamHashes_statusCache]
      show loadStatusCache cache1 projectPath workingBranch w.statusFile = cache1
      rw [hdefc1]
      exact loadStatusCache_idem st.statusCache projectPath workingBranch w.statusFile
    rw [hload2]
    have hu2 := getBatchUpstreamHashes_stable st1
      { fetched.2 with statusCache := cache1 }
      projectPath upstreamBranch w.bulkHashes rfl
    rw [hu2, ← hdeffetched]

/-- C9 (witness): one file, translated in the persisted cache and
unchanged upstream: both runs return the same status map. -/
theorem claim9_witness :
    (getFileTreeStatus
        (getFileTreeStatus
          { statusCache := [], upstreamHashCache := [] }
          { statusFile := some [("a.md",
              { path := "a.md", status := .translated, modified := none, lastHash := some "h1" })],
            scannedFiles := ["a.md"], bulkHashes := some [("a.md", "h1")], modifiedMap := [] }
          "P" "up" "main").2.1
        (getFileTreeStatus
          { statusCache := [], upstreamHashCache := [] }
          { statusFile := some [("a.md",
              { path := "a.md", status := .translated, modified := none, lastHash := some "h1" })],
            scannedFiles := ["a.md"], bulkHashes := some [("a.md", "h1")], modifiedMap := [] }
          "P" "up" "main").2.2
        "P" "up" "main").1 =
      (getFileTreeStatus
        { statusCache := [], upstreamHashCache := [] }
        { statusFile := some [("a.md",
            { path := "a.md", status := .translated, modified := none, lastHash := some "h1" })],
          scannedFiles := ["a.md"], bulkHashes := some [("a.md", "h1")], modifiedMap := [] }
        "P" "up" "main").1 :=
  claim9_theorem
    { statusCache := [], upstreamHashCache := [] }
    { statusFile := some [("a.md",
        { path := "a.md", status := .translated, modified := none, lastHash := some "h1" })],
      scannedFiles := ["a.md"], bulkHashes := some [("a.md", "h1")], modifiedMap := [] }
    "P" "up" "main"
    (by
      intro entries he
      have hent : entries = [("a.md",
          { path := "a.md", status := .translated, modified := none, lastHash := some "h1" })] := by
        simpa using he.symm
      subst hent
      decide)
    (by decide)

/-- State of one `processFile` worker in `translateWithConcurrency`
(TranslationDialog): `idle` at the loop head, `running i` after having
claimed index `i` (the synchronous `const currentIndex = index++`) while
its `await translateFile` is in flight, `done` after the loop exit. -/
inductive WorkerState where
  | idle
  | running (i : Nat)
  | done
deriving DecidableEq

/-- Shared state of `translateWithConcurrency`: the shared `index`
counter, the `results` map keyed by file path, and the worker pool. -/
structure PoolState where
  index : Nat
  results : List (String × Bool)
  workers : List WorkerState
deriving DecidableEq

/-- Initial state: `index = 0`, empty `results`, `concurrency` workers
all at the loop head (`Array.from({length: concurrency},
() => processFile())`). -/
def initPool (concurrency : Nat) : PoolState :=
  { index := 0, results := [], workers := List.replicate concurrency .idle }

/-- Interleaving semantics of `translateWithConcurrency`: the scheduler
picks any worker.  An idle worker with `index < files.length` atomically
claims the next index (check and `index++` happen in one synchronous
slice); an idle worker with `index >= files.length` leaves the loop; a
running worker finishes its `await translateFile` (successfully or not
— `outcome i = true` models success, `false` a caught per-file failure)
and records `results.set(files[i], ...)`, returning to the loop head. -/
inductive PoolStep (files : List String) (outcome : Nat → Bool) :
    PoolState → PoolState → Prop where
  | claim (s : PoolState) (w : Nat) (hw : s.workers[w]? = some .idle)
      (hi : s.index < files.length) :
      PoolStep files outcome s
        { index := s.index + 1, results := s.results,
          workers := s.workers.set w (.running s.index) }
  | leave (s : PoolState) (w : Nat) (hw : s.workers[w]? = some .idle)
      (hi : files.length ≤ s.index) :
      PoolStep files outcome s
        { index := s.index, results := s.results, workers := s.workers.set w .done }
  | record (s : PoolState) (w i : Nat) (hw : s.workers[w]? = some (.running i))
      (hf : i < files.length) :
      PoolStep files outcome s
        { index := s.index, results := mapSet s.results files[i] (outcome i),
          workers := s.workers.set w .idle }

/-- Reflexive-transitive interleaved execution. -/
inductive PoolReach (files : List String) (outcome : Nat → Bool) :
    PoolState → PoolState → Prop where
  | refl (s : PoolState) : PoolReach files outcome s s
  | tail (s t u : PoolState) : PoolReach files outcome s t → PoolStep files outcome t u →
      PoolReach files outcome s u

/-- A state where every worker has left its loop: `Promise.all(tasks)`
has resolved. -/
def poolFinal (s : PoolState) : Prop :=
  ∀ ws ∈ s.workers, ws = WorkerState.done

/-- Cost of one worker for the termination measure. -/
def workerCost : WorkerState → Nat
  | .idle => 1
  | .running _ => 2
  | .done => 0

/-- Termination measure: strictly decreases on every step. -/
def poolMeasure (files : List String) (s : PoolState) : Nat :=
  2 * (files.length - s.index) + (s.workers.map workerCost).sum

/-- Invariant of the worker pool, preserved by every step. -/
structure PoolInv (files : List String) (outcome : Nat → Bool) (s : PoolState) : Prop where
  index_le : s.index ≤ files.length
  run_lt : ∀ (w i : Nat), s.workers[w]? = some (WorkerState.running i) → i < s.index
  run_uniq : ∀ (w1 w2 i : Nat), s.workers[w1]? = some (WorkerState.running i) →
    s.workers[w2]? = some (WorkerState.running i) → w1 = w2
  res_some : ∀ (i : Nat) (hf : i < files.length), i < s.index →
    (∀ (w : Nat), s.workers[w]? ≠ some (WorkerState.running i)) →
    mapLookup s.results files[i] = some (outcome i)
  res_none : ∀ (i : Nat) (hf : i < files.length),
    (s.index ≤ i ∨ ∃ (w : Nat), s.workers[w]? = some (WorkerState.running i)) →
    mapLookup s.results files[i] = none
  res_dom : ∀ p, p ∉ files → mapLookup s.results p = none
  keys_nodup : (s.results.map Prod.fst).Nodup
  done_full : (∃ (w : Nat), s.workers[w]? = some WorkerState.done) → s.index = files.length

theorem sum_map_set (l : List WorkerState) (w : Nat) (a x : WorkerState)
    (h : l[w]? = some x) :
    ((l.set w a).map workerCost).sum + workerCost x =
      (l.map workerCost).sum + workerCost a := by
  induction l generalizing w with
  | nil => simp at h
  | cons b rest ih =>
      cases w with
      | zero =>
          simp only [List.getElem?_cons_zero, Option.some.injEq] at h
          subst h
          simp only [List.set_cons_zero, List.map_cons, List.sum_cons]
          omega
      | succ w2 =>
          simp only [List.getElem?_cons_succ] at h
          simp only [List.set_cons_succ, List.map_cons, List.sum_cons]
          have := ih w2 h
          omega

theorem poolStep_measure_lt {files : List String} {outcome : Nat → Bool} {s t : PoolState}
    (hstep : PoolStep files outcome s t) :
    poolMeasure files t < poolMeasure files s := by
  cases hstep with
  | claim w hw hi =>
      have hs := sum_map_set s.workers w (.running s.index) .idle hw
      simp only [poolMeasure, workerCost] at hs ⊢
      omega
  | leave w hw hi =>
      have hs := sum_map_set s.workers w .done .idle hw
      have hK : files.length - s.index = 0 := by omega
      simp only [poolMeasure, workerCost] at hs ⊢
      omega
  | record w i hw hf =>
      have hs := sum_map_set s.workers w .idle (.running i) hw
      simp only [poolMeasure, workerCost] at hs ⊢
      omega

theorem poolInv_init (files : List String) (outcome : Nat → Bool) (n : Nat) :
    PoolInv files outcome (initPool n) := by
  refine ⟨Nat.zero_le _, ?_, ?_, ?_, ?_, ?_, ?_, ?_⟩
  · intro w i h
    rw [initPool, List.getElem?_replicate] at h
    by_cases hw : w < n <;> simp [hw] at h
  · intro w1 w2 i h1 h2
    rw [initPool, List.getElem?_replicate] at h1
    by_cases hw : w1 < n <;> simp [hw] at h1
  · intro i hf hidx hnr
    exact absurd hidx (by simp [initPool])
  · intro i hf hcond
    rfl
  · intro p hp
    rfl
  · exact List.nodup_nil
  · rintro ⟨w, hd⟩
    rw [initPool, List.getElem?_replicate] at hd
    by_cases hw : w < n <;> simp [hw] at hd

theorem poolInv_step {files : List String} {outcome : Nat → Bool} {s t : PoolState}
    (hnd : files.Nodup) (hinv : PoolInv files outcome s)
    (hstep : PoolStep files outcome s t) : PoolInv files outcome t := by
  cases hstep with
  | claim w hw hi =>
      have hwlt : w < s.workers.length := (List.getElem?_eq_some.mp hw).1
      refine ⟨?_, ?_, ?_, ?_, ?_, hinv.res_dom, hinv.keys_nodup, ?_⟩
      all_goals dsimp only
      · omega
      · intro w1 i h1
        by_cases hww : w1 = w
        · subst hww
          rw [List.getElem?_set_self hwlt] at h1
          cases h1
          omega
        · rw [List.getElem?_set_ne (fun he => hww he.symm)] at h1
          have := hinv.run_lt w1 i h1
          omega
      · intro w1 w2 i h1 h2
        by_cases hw1 : w1 = w <;> by_cases hw2 : w2 = w
        · rw [hw1, hw2]
        · subst hw1
          rw [List.getElem?_set_self hwlt] at h1
          cases h1
          rw [List.getElem?_set_ne (fun he => hw2 he.symm)] at h2
          have := hinv.run_lt w2 _ h2
          omega
        · subst hw2
          rw [List.getElem?_set_self hwlt] at h2
          cases h2
          rw [List.getElem?_set_ne (fun he => hw1 he.symm)] at h1
          have := hinv.run_lt w1 _ h1
          omega
        · rw [List.getElem?_set_ne (fun he => hw1 he.symm)] at h1
          rw [List.getElem?_set_ne (fun he => hw2 he.symm)] at h2
          exact hinv.run_uniq w1 w2 i h1 h2
      · intro i hf hidx hnr
        by_cases hii : i = s.index
        · exfalso
          apply hnr w
          subst hii
          rw [List.getElem?_set_self hwlt]
        · apply hinv.res_some i hf (by omega)
          intro w1 h1
          by_cases hww : w1 = w
          · subst hww
            rw [hw] at h1
            cases h1
          · apply hnr w1
            rw [List.getElem?_set_ne (fun he => hww he.symm)]
            exact h1
      · intro i hf hcond
        rcases hcond with hle | ⟨w1, h1⟩
        · exact hinv.res_none i hf (Or.inl (by omega))
        · by_cases hww : w1 = w
          · subst hww
            rw [List.getElem?_set_self hwlt] at h1
            cases h1
            exact hinv.res_none _ hf (Or.inl (le_refl _))
          · rw [List.getElem?_set_ne (fun he => hww he.symm)] at h1
            exact hinv.res_none i hf (Or.inr ⟨w1, h1⟩)
      · rintro ⟨w1, h1⟩
        by_cases hww : w1 = w
        · subst hww
          rw [List.getElem?_set_self hwlt] at h1
          cases h1
        · rw [List.getElem?_set_ne (fun he => hww he.symm)] at h1
          have := hinv.done_full ⟨w1, h1⟩
          omega
  | leave w hw hi =>
      have hwlt : w < s.workers.length := (List.getElem?_eq_some.mp hw).1
      refine ⟨hinv.index_le, ?_, ?_, ?_, ?_, hinv.res_dom, hinv.keys_nodup, ?_⟩
      all_goals dsimp only
      · intro w1 i h1
        by_cases hww : w1 = w
        · subst hww
          rw [List.getElem?_set_self hwlt] at h1
          cases h1
        · rw [List.getElem?_set_ne (fun he => hww he.symm)] at h1
          exact hinv.run_lt w1 i h1
      · intro w1 w2 i h1 h2
        by_cases hw1 : w1 = w
        · subst hw1
          rw [List.getElem?_set_self hwlt] at h1
          cases h1
        · by_cases hw2 : w2 = w
          · subst hw2
            rw [List.getElem?_set_self hwlt] at h2
            cases h2
          · rw [List.getElem?_set_ne (fun he => hw1 he.symm)] at h1
            rw [List.getElem?_set_ne (fun he => hw2 he.symm)] at h2
            exact hinv.run_uniq w1 w2 i h1 h2
      · intro i hf hidx hnr
        apply hinv.res_some i hf hidx
        intro w1 h1
        by_cases hww : w1 = w
        · subst hww
          rw [hw] at h1
          cases h1
        · apply hnr w1
          rw [List.getElem?_set_ne (fun he => hww he.symm)]
          exact h1
      · intro i hf hcond
        rcases hcond with hle | ⟨w1, h1⟩
        · exact hinv.res_none i hf (Or.inl hle)
        · by_cases hww : w1 = w
          · subst hww
            rw [List.getElem?_set_self hwlt] at h1
            cases h1
          · rw [List.getElem?_set_ne (fun he => hww he.symm)] at h1
            exact hinv.res_none i hf (Or.inr ⟨w1, h1⟩)
      · intro _
        have := hinv.index_le
        omega
  | record w i0 hw hf0 =>
      have hwlt : w < s.workers.length := (List.getElem?_eq_some.mp hw).1
      have hi0 : i0 < s.index := hinv.run_lt w i0 hw
      have hkey : ∀ (i : Nat) (hf : i < files.length), i ≠ i0 → files[i] ≠ files[i0] := by
        intro i hf hne he
        exact hne ((List.Nodup.getElem_inj_iff hnd).mp he)
      refine ⟨hinv.index_le, ?_, ?_, ?_, ?_, ?_, ?_, ?_⟩
      all_goals dsimp only
      · intro w1 i h1
        by_cases hww : w1 = w
        · subst hww
          rw [List.getElem?_set_self hwlt] at h1
          cases h1
        · rw [List.getElem?_set_ne (fun he => hww he.symm)] at h1
          exact hinv.run_lt w1 i h1
      · intro w1 w2 i h1 h2
        by_cases hw1 : w1 = w
        · subst hw1
          rw [List.getElem?_set_self hwlt] at h1
          cases h1
        · by_cases hw2 : w2 = w
          · subst hw2
            rw [List.getElem?_set_self hwlt] at h2
            cases h2
          · rw [List.getElem?_set_ne (fun he => hw1 he.symm)] at h1
            rw [List.getElem?_set_ne (fun he => hw2 he.symm)] at h2
            exact hinv.run_uniq w1 w2 i h1 h2
      · intro i hf hidx hnr
        by_cases hii : i = i0
        · subst hii
          exact mapLookup_mapSet_self s.results files[i] (outcome i)
        · rw [mapLookup_mapSet_ne s.results files[i0] files[i] (outcome i0) (hkey i hf hii)]
          apply hinv.res_some i hf hidx
          intro w1 h1
          by_cases hww : w1 = w
          · subst hww
            rw [hw] at h1
            cases h1
            exact hii rfl
          · apply hnr w1
            rw [List.getElem?_set_ne (fun he => hww he.symm)]
            exact h1
      · intro i hf hcond
        rcases hcond with hle | ⟨w1, h1⟩
        · have hii : i ≠ i0 := by omega
          rw [mapLookup_mapSet_ne s.results files[i0] files[i] (outcome i0) (hkey i hf hii)]
          exact hinv.res_none i hf (Or.inl hle)
        · by_cases hww : w1 = w
          · subst hww
            rw [List.getElem?_set_self hwlt] at h1
            cases h1
          · rw [List.getElem?_set_ne (fun he => hww he.symm)] at h1
            have hii : i ≠ i0 := by
              intro he
              subst he
              exact hww (hinv.run_uniq w1 w i h1 hw)
            rw [mapLookup_mapSet_ne s.results files[i0] files[i] (outcome i0) (hkey i hf hii)]
            exact hinv.res_none i hf (Or.inr ⟨w1, h1⟩)
      · intro p hp
        have hpne : p ≠ files[i0] := by
          intro he
          exact hp (he ▸ List.getElem_mem hf0)
        rw [mapLookup_mapSet_ne s.results files[i0] p (outcome i0) hpne]
        exact hinv.res_dom p hp
      · exact mapSet_keys_nodup _ _ hinv.keys_nodup
      · rintro ⟨w1, h1⟩
        by_cases hww : w1 = w
        · subst hww
          rw [List.getElem?_set_self hwlt] at h1
          cases h1
        · rw [List.getElem?_set_ne (fun he => hww he.symm)] at h1
          exact hinv.done_full ⟨w1, h1⟩

theorem poolInv_reach {files : List String} {outcome : Nat → Bool} {s t : PoolState}
    (hnd : files.Nodup) (hinv : PoolInv files outcome s)
    (hreach : PoolReach files outcome s t) : PoolInv files outcome t := by
  induction hreach with
  | refl => exact hinv
  | tail t u hr hs ih => exact poolInv_step hnd ih hs

theorem poolReach_workers_length {files : List String} {outcome : Nat → Bool} {s t : PoolState}
    (hreach : PoolReach files outcome s t) : t.workers.length = s.workers.length := by
  induction hreach with
  | refl => rfl
  | tail t u hr hs ih =>
      cases hs with
      | claim w hw hi => simpa [List.length_set] using ih
      | leave w hw hi => simpa [List.length_set] using ih
      | record w i hw hf => simpa [List.length_set] using ih

/-- C8: for a batch of distinct selected paths run by
`translateWithConcurrency` with concurrency `n >= 1` (the caller always
passes at least 1: `config.llmConfig.concurrency || 3`), every maximal
interleaved execution terminates — each scheduler step strictly
decreases a measure — in a state whose result map has exactly one entry
per selected path: path `i`'s entry is its own outcome (success or
caught failure — one path's failure does not remove, block or cancel any
other path's entry), there are no other entries, and the entry count
equals the number of selected paths. -/
theorem claim8_theorem (files : List String) (outcome : Nat → Bool) (n : Nat) (s : PoolState)
    (hnd : files.Nodup) (hn : 1 ≤ n)
    (hreach : PoolReach files outcome (initPool n) s) (hfin : poolFinal s) :
    s.results.length = files.length ∧
    (∀ (i : Nat) (hf : i < files.length), mapLookup s.results files[i] = some (outcome i)) ∧
    (∀ p, p ∉ files → mapLookup s.results p = none) ∧
    (s.results.map Prod.fst).Nodup ∧
    (∀ t u : PoolState, PoolStep files outcome t u →
      poolMeasure files u < poolMeasure files t) := by
  have hinv := poolInv_reach hnd (poolInv_init files outcome n) hreach
  have hlen : s.workers.length = n := by
    simpa [initPool] using poolReach_workers_length hreach
  have h0lt : 0 < s.workers.length := by omega
  have hws0 : s.workers[0]? = some s.workers[0] := List.getElem?_eq_getElem h0lt
  have hdone0 : s.workers[0] = WorkerState.done :=
    hfin _ (List.getElem?_mem hws0)
  have hidx : s.index = files.length :=
    hinv.done_full ⟨0, by rw [hws0, hdone0]⟩
  have hnorun : ∀ (i w : Nat), s.workers[w]? ≠ some (WorkerState.running i) := by
    intro i w hw
    have hmem := List.getElem?_mem hw
    have := hfin _ hmem
    simp at this
  have hsome : ∀ (i : Nat) (hf : i < files.length),
      mapLookup s.results files[i] = some (outcome i) := by
    intro i hf
    exact hinv.res_some i hf (by omega) (fun w => hnorun i w)
  have hkeysub : (s.results.map Prod.fst) ⊆ files := by
    intro p hp
    obtain ⟨kv, hkv, hfst⟩ := List.mem_map.mp hp
    by_contra hnp
    have hnone := hinv.res_dom p hnp
    have hs2 := mapLookup_isSome_of_mem hkv
    rw [hfst, hnone] at hs2
    cases hs2
  have hfilesub : files ⊆ (s.results.map Prod.fst) := by
    intro f hfm
    obtain ⟨i, hf, hif⟩ := List.mem_iff_getElem.mp hfm
    have hl := hsome i hf
    have hmem := mapLookup_mem hl
    exact List.mem_map.mpr ⟨(files[i], outcome i), hmem, hif⟩
  have hlen2 : s.results.length = files.length := by
    have h1 := (List.subperm_of_subset hinv.keys_nodup hkeysub).length_le
    have h2 := (List.subperm_of_subset hnd hfilesub).length_le
    rw [List.length_map] at h1 h2
    omega
  exact ⟨hlen2, hsome, hinv.res_dom, hinv.keys_nodup,
    fun t u hstep => poolStep_measure_lt hstep⟩

/-- C8 (witness): two files, one worker (concurrency 1 < 2): an explicit
complete schedule ends with exactly two result entries, one per path. -/
theorem claim8_witness :
    ((⟨2, [("a", true), ("b", true)], [WorkerState.done]⟩ : PoolState)).results.length =
      (["a", "b"] : List String).length ∧
    mapLookup [("a", true), ("b", true)] "a" = some true ∧
    mapLookup [("a", true), ("b", true)] "b" = some true :=
  have hreach : PoolReach ["a", "b"] (fun _ => true) (initPool 1)
      ⟨2, [("a", true), ("b", true)], [WorkerState.done]⟩ :=
    PoolReach.tail (initPool 1)
      ⟨2, [("a", true), ("b", true)], [WorkerState.idle]⟩
      ⟨2, [("a", true), ("b", true)], [WorkerState.done]⟩
      (PoolReach.tail (initPool 1)
        ⟨2, [("a", true)], [WorkerState.running 1]⟩
        ⟨2, [("a", true), ("b", true)], [WorkerState.idle]⟩
        (PoolReach.tail (initPool 1)
          ⟨1, [("a", true)], [WorkerState.idle]⟩
          ⟨2, [("a", true)], [WorkerState.running 1]⟩
          (PoolReach.tail (initPool 1)
            ⟨1, [], [WorkerState.running 0]⟩
            ⟨1, [("a", true)], [WorkerState.idle]⟩
            (PoolReach.tail (initPool 1) (initPool 1)
              ⟨1, [], [WorkerState.running 0]⟩
              (PoolReach.refl (initPool 1))
              (PoolStep.claim (initPool 1) 0 (by decide) (by decide)))
            (PoolStep.record ⟨1, [], [WorkerState.running 0]⟩ 0 0 (by decide) (by decide)))
          (PoolStep.claim ⟨1, [("a", true)], [WorkerState.idle]⟩ 0 (by decide) (by decide)))
        (PoolStep.record ⟨2, [("a", true)], [WorkerState.running 1]⟩ 0 1 (by decide) (by decide)))
      (PoolStep.leave ⟨2, [("a", true), ("b", true)], [WorkerState.idle]⟩ 0 (by decide) (by decide))
  have h := claim8_theorem ["a", "b"] (fun _ => true) 1
    ⟨2, [("a", true), ("b", true)], [WorkerState.done]⟩
    (by decide) (by decide) hreach
    (by intro ws hws; simp only [List.mem_singleton] at hws; exact hws)
  ⟨h.1, h.2.1 0 (by decide), h.2.1 1 (by decide)⟩

end ODT
